import Mathlib

/-!
Shallow embedding of the payment intake/dispatch gateway
(`rinha-backend-2025`, Rust) and verification of its specification claims.

Modelled source files:
- `src/models/payment.rs` (data model),
- `src/services/payment_processor_client.rs` (circuit breaker, upstream client, router),
- `src/services/payment_service.rs` (submit, worker loop, summary),
- `src/services/atomic_metrics.rs` (counters),
- `src/main.rs` / `src/handlers/payments.rs` (queue wiring and HTTP status mapping).

Machine integers: amounts and fees are `u64` in the source; all claims stay far
below `2^64`, so they are modelled as `Nat` (Rust `u64` division `amount / 20`
coincides with truncating `Nat` division). Wall-clock instants (`SystemTime`)
are modelled as `Nat` milliseconds; `last_failure.elapsed().unwrap_or(ZERO)`
clamps a backwards clock to zero, which truncating `Nat` subtraction mirrors
exactly.
-/

/-- The client-submitted intake object (`PaymentRequest` in `models/payment.rs`). -/
structure PaymentRequest where
  id : String
  amount : Nat
deriving DecidableEq

/-- The stored outcome (`Payment` in `models/payment.rs`); `processed_at` is an
optional wall-clock instant. -/
structure Payment where
  id : String
  amount : Nat
  processor : String
  fee : Nat
  processed_at : Option Nat
deriving DecidableEq

/-- Configuration (`app/config.rs`); only the fields the dispatch path reads. -/
structure Config where
  token : String
  default_processor_url : String
  fallback_processor_url : String
  queue_buffer_size : Nat
  circuit_breaker_threshold : Nat
  circuit_breaker_timeout_secs : Nat
deriving DecidableEq

/-- The default configuration values of `Config::from_env` when no environment
variable is set. -/
def Config.defaults : Config :=
  { token := "123"
  , default_processor_url := "http://payment-processor-default:8080"
  , fallback_processor_url := "http://payment-processor-fallback:8080"
  , queue_buffer_size := 1000
  , circuit_breaker_threshold := 5
  , circuit_breaker_timeout_secs := 30 }

/-- Breaker state enumeration (`CircuitBreakerState` in
`payment_processor_client.rs`). -/
inductive CircuitBreakerState where
  | Closed
  | Open
  | HalfOpen
deriving DecidableEq

/-- The per-upstream circuit breaker (`CircuitBreaker` struct). -/
structure CircuitBreaker where
  state : CircuitBreakerState
  failure_count : Nat
  last_failure_time : Option Nat
  threshold : Nat
  timeout : Nat
deriving DecidableEq

/-- `CircuitBreaker::new`. -/
def CircuitBreaker.new (threshold timeout : Nat) : CircuitBreaker :=
  { state := .Closed
  , failure_count := 0
  , last_failure_time := none
  , threshold := threshold
  , timeout := timeout }

/-- `CircuitBreaker::can_execute(&mut self)`. The mutation is made explicit:
the returned pair is (returned boolean, breaker after the call). `now` is the
ambient wall clock read by `last_failure.elapsed()`; the source's
`unwrap_or(Duration::ZERO)` on a backwards clock is truncating `Nat`
subtraction. -/
def CircuitBreaker.canExecute (b : CircuitBreaker) (now : Nat) :
    Bool × CircuitBreaker :=
  match b.state with
  | .Closed => (true, b)
  | .Open =>
      match b.last_failure_time with
      | some lf =>
          if b.timeout ≤ now - lf then
            (true, { b with state := .HalfOpen })
          else
            (false, b)
      | none => (false, b)
  | .HalfOpen => (true, b)

/-- `CircuitBreaker::record_success`. -/
def CircuitBreaker.recordSuccess (b : CircuitBreaker) : CircuitBreaker :=
  { b with failure_count := 0, state := .Closed, last_failure_time := none }

/-- `CircuitBreaker::record_failure`, with `now` the instant
`SystemTime::now()` returns. -/
def CircuitBreaker.recordFailure (b : CircuitBreaker) (now : Nat) :
    CircuitBreaker :=
  let b' := { b with failure_count := b.failure_count + 1
                   , last_failure_time := some now }
  if b'.threshold ≤ b'.failure_count then { b' with state := .Open } else b'

/-- Decides whether `needle` occurs at the start of `hay` (character lists). -/
def startsWithChars : List Char → List Char → Bool
  | [], _ => true
  | _ :: _, [] => false
  | a :: as, b :: bs => a = b && startsWithChars as bs

/-- Decides whether `needle` occurs contiguously anywhere in `hay`
(character lists). -/
def containsChars (needle : List Char) : List Char → Bool
  | [] => startsWithChars needle []
  | b :: bs => startsWithChars needle (b :: bs) || containsChars needle bs

/-- Rust `str::contains` for a literal pattern: substring test. -/
def strContains (hay needle : String) : Bool :=
  containsChars needle.toList hay.toList

/-- The success `Payment` built by `PaymentProcessorClient::send_request` on a
2xx response: the processor tag is derived from the URL by substring test
(`url.contains("default")`), the fee is `amount / 20` with truncating
division, and `processed_at` is the current instant. -/
def mkSuccessPayment (url : String) (req : PaymentRequest) (now : Nat) : Payment :=
  { id := req.id
  , amount := req.amount
  , processor := if strContains url "default" then "default" else "fallback"
  , fee := req.amount / 20
  , processed_at := some now }

/-- `PaymentProcessorClient::send_request`: the HTTP exchange itself is
external, so its observable outcome is a parameter `httpOk` (did the upstream
answer 2xx within the timeout). On success the payment record is built; on a
non-2xx status, network error or timeout the call returns an error (`none`). -/
def sendRequest (url : String) (req : PaymentRequest) (httpOk : Bool)
    (now : Nat) : Option Payment :=
  if httpOk then some (mkSuccessPayment url req now) else none

/-- The mutable state of `PaymentProcessorClient`: one breaker per upstream. -/
structure ClientState where
  default_breaker : CircuitBreaker
  fallback_breaker : CircuitBreaker
deriving DecidableEq

/-- Fresh client state as built by `PaymentProcessorClient::new`. -/
def ClientState.new (cfg : Config) : ClientState :=
  { default_breaker := CircuitBreaker.new cfg.circuit_breaker_threshold
      cfg.circuit_breaker_timeout_secs
  , fallback_breaker := CircuitBreaker.new cfg.circuit_breaker_threshold
      cfg.circuit_breaker_timeout_secs }

/-- Result of one `try_processor` call: the optional payment, the client state
after the breaker mutations, and the list of upstream URLs actually POSTed
(empty when the breaker denied execution). -/
structure TryResult where
  payment : Option Payment
  client : ClientState
  httpCalls : List String
deriving DecidableEq

/-- `PaymentProcessorClient::try_processor`. Selects URL and breaker by
`processor_type`, consults `can_execute`, and on execution performs the HTTP
call (outcome `httpOk`) recording success or failure on the breaker. -/
def tryProcessor (cfg : Config) (cs : ClientState) (processorType : String)
    (req : PaymentRequest) (httpOk : Bool) (now : Nat) : TryResult :=
  if processorType = "default" then
    let (canExec, b1) := cs.default_breaker.canExecute now
    if canExec then
      match sendRequest cfg.default_processor_url req httpOk now with
      | some p =>
          { payment := some p
          , client := { cs with default_breaker := b1.recordSuccess }
          , httpCalls := [cfg.default_processor_url] }
      | none =>
          { payment := none
          , client := { cs with default_breaker := b1.recordFailure now }
          , httpCalls := [cfg.default_processor_url] }
    else
      { payment := none
      , client := { cs with default_breaker := b1 }
      , httpCalls := [] }
  else if processorType = "fallback" then
    let (canExec, b1) := cs.fallback_breaker.canExecute now
    if canExec then
      match sendRequest cfg.fallback_processor_url req httpOk now with
      | some p =>
          { payment := some p
          , client := { cs with fallback_breaker := b1.recordSuccess }
          , httpCalls := [cfg.fallback_processor_url] }
      | none =>
          { payment := none
          , client := { cs with fallback_breaker := b1.recordFailure now }
          , httpCalls := [cfg.fallback_processor_url] }
    else
      { payment := none
      , client := { cs with fallback_breaker := b1 }
      , httpCalls := [] }
  else
    { payment := none, client := cs, httpCalls := [] }

/-- `PaymentProcessorClient::process_payment`: try the default upstream first;
only if that yields no payment, try the fallback. `defaultOk`/`fallbackOk`
say whether the respective upstream would answer 2xx if contacted. -/
def processPayment (cfg : Config) (cs : ClientState) (req : PaymentRequest)
    (defaultOk fallbackOk : Bool) (now : Nat) : TryResult :=
  let r1 := tryProcessor cfg cs "default" req defaultOk now
  match r1.payment with
  | some p => { payment := some p, client := r1.client, httpCalls := r1.httpCalls }
  | none =>
      let r2 := tryProcessor cfg r1.client "fallback" req fallbackOk now
      { payment := r2.payment
      , client := r2.client
      , httpCalls := r1.httpCalls ++ r2.httpCalls }

/-- Removal of every binding of a key from an association list; auxiliary to
the overwrite semantics of `DashMap::insert`. -/
def ledgerRemove : List (String × Payment) → String → List (String × Payment)
  | [], _ => []
  | e :: rest, k =>
      if e.1 = k then ledgerRemove rest k else e :: ledgerRemove rest k

/-- The ledger (`DashMap<String, Payment>`) as an association list with unique
keys; `DashMap::insert` overwrites, modelled by removing the key and consing
the new binding. -/
def ledgerInsert (l : List (String × Payment)) (k : String) (v : Payment) :
    List (String × Payment) :=
  (k, v) :: ledgerRemove l k

/-- Ledger read (`DashMap::get`). -/
def ledgerGet : List (String × Payment) → String → Option Payment
  | [], _ => none
  | e :: rest, k => if e.1 = k then some e.2 else ledgerGet rest k

/-- Number of ledger records whose `processor` tag is still `"pending"`. -/
def countPending : List (String × Payment) → Nat
  | [] => 0
  | e :: rest =>
      (if e.2.processor = "pending" then 1 else 0) + countPending rest

/-- Keys of the ledger, used to state that the ledger binds each id once. -/
def ledgerKeys : List (String × Payment) → List String
  | [] => []
  | e :: rest => e.1 :: ledgerKeys rest

/-- Whether the record stored under `k` (if any) is still `"pending"`. -/
def pendingAt (l : List (String × Payment)) (k : String) : Bool :=
  match ledgerGet l k with
  | some p => p.processor = "pending"
  | none => false

/-- The `pending` record inserted by `PaymentService::submit_payment` before
the request is enqueued. -/
def mkPendingPayment (req : PaymentRequest) : Payment :=
  { id := req.id, amount := req.amount, processor := "pending", fee := 0
  , processed_at := none }

/-- The `failed` record inserted by `PaymentService::process_single_payment`
when both upstreams fail. -/
def mkFailedPayment (req : PaymentRequest) (now : Nat) : Payment :=
  { id := req.id, amount := req.amount, processor := "failed", fee := 0
  , processed_at := some now }

/-- Whole-system state: ledger (`storage`), the bounded mpsc queue contents
with its closed flag, the three `AtomicMetrics` counters, and the
`PaymentProcessorClient` breaker state. -/
structure SysState where
  ledger : List (String × Payment)
  queue : List PaymentRequest
  closed : Bool
  submitted : Nat
  processed : Nat
  failed : Nat
  client : ClientState
deriving DecidableEq

/-- Initial system state as wired in `main.rs`. -/
def SysState.init (cfg : Config) : SysState :=
  { ledger := [], queue := [], closed := false
  , submitted := 0, processed := 0, failed := 0
  , client := ClientState.new cfg }

/-- The effects of `submit_payment` that precede the `send` await: increment
the `submitted` counter and insert the `pending` record into the ledger. -/
def submitCore (s : SysState) (req : PaymentRequest) : SysState :=
  { s with submitted := s.submitted + 1
         , ledger := ledgerInsert s.ledger req.id (mkPendingPayment req) }

/-- Immediate outcome of one `submit_payment` call against a tokio bounded
mpsc channel: `accepted` (`send` completed, HTTP 202), `rejected` (`send`
returned an error because the receiver was dropped; mapped to
`ServiceError::QueueFull` and HTTP 503), or `blocked` (channel open but at
capacity: `send(..).await` suspends until the consumer frees a slot, so the
call produces no response while the worker is paused). -/
inductive SubmitOutcome where
  | accepted
  | rejected
  | blocked
deriving DecidableEq

/-- `PaymentService::submit_payment` as an atomic attempt with queue capacity
`cap`: counter increment and pending-record insert happen first (they precede
the `send` await in the source), then the channel send is attempted. -/
def submitAttempt (cap : Nat) (s : SysState) (req : PaymentRequest) :
    SubmitOutcome × SysState :=
  let s1 := submitCore s req
  if s1.closed then
    (.rejected, s1)
  else if s1.queue.length < cap then
    (.accepted, { s1 with queue := s1.queue ++ [req] })
  else
    (.blocked, s1)

/-- Sequence of `submit_payment` attempts, returning the outcomes in order. -/
def submitMany (cap : Nat) (s : SysState) :
    List PaymentRequest → List SubmitOutcome × SysState
  | [] => ([], s)
  | req :: rest =>
      let (o, s') := submitAttempt cap s req
      let (os, s'') := submitMany cap s' rest
      (o :: os, s'')

/-- A completed `submit_payment` call inside a trace: when the channel is open
the send eventually succeeds (a temporarily full queue only delays it), when
it is closed the call returns `QueueFull` without enqueueing. -/
def submitCompleted (s : SysState) (req : PaymentRequest) : SysState :=
  let s1 := submitCore s req
  if s1.closed then s1 else { s1 with queue := s1.queue ++ [req] }

/-- One iteration of the worker loop (`process_payments_async` calling
`process_single_payment`) on the head of the queue: dispatch through
`process_payment`, insert the resulting record, bump the matching counter. -/
def workStep (cfg : Config) (s : SysState) (defaultOk fallbackOk : Bool)
    (now : Nat) : SysState :=
  match s.queue with
  | [] => s
  | req :: rest =>
      let out := processPayment cfg s.client req defaultOk fallbackOk now
      match out.payment with
      | some p =>
          { s with queue := rest
                 , client := out.client
                 , ledger := ledgerInsert s.ledger req.id p
                 , processed := s.processed + 1 }
      | none =>
          { s with queue := rest
                 , client := out.client
                 , ledger := ledgerInsert s.ledger req.id (mkFailedPayment req now)
                 , failed := s.failed + 1 }

/-- Events of a system trace: a completed submission, one worker iteration
(with the two upstreams' would-be responses and the wall clock), or the
channel closing (the receiver is dropped; tokio then discards buffered
items and every later send fails). -/
inductive Event where
  | submit (req : PaymentRequest)
  | work (defaultOk fallbackOk : Bool) (now : Nat)
  | close
deriving DecidableEq

/-- Step of the whole-system trace semantics. -/
def sysStep (cfg : Config) (s : SysState) : Event → SysState
  | .submit req => submitCompleted s req
  | .work dOk fOk now => workStep cfg s dOk fOk now
  | .close => { s with closed := true, queue := [] }

/-- Run a trace from the initial state. -/
def sysRun (cfg : Config) (events : List Event) : SysState :=
  events.foldl (sysStep cfg) (SysState.init cfg)

/-- A sequence of consecutive `record_failure` calls at the given instants,
starting from a freshly constructed breaker. -/
def failSeq (T tmo : Nat) (ts : List Nat) : CircuitBreaker :=
  ts.foldl CircuitBreaker.recordFailure (CircuitBreaker.new T tmo)

/-- Operations a caller can perform on one circuit breaker. -/
inductive BreakerOp where
  | canExec (now : Nat)
  | success
  | failure (now : Nat)
deriving DecidableEq

/-- Apply one breaker operation (discarding `can_execute`'s boolean). -/
def breakerStep (b : CircuitBreaker) : BreakerOp → CircuitBreaker
  | .canExec now => (b.canExecute now).2
  | .success => b.recordSuccess
  | .failure now => b.recordFailure now

/-- Breaker state reached from a fresh breaker by a sequence of operations. -/
def breakerRun (T tmo : Nat) (ops : List BreakerOp) : CircuitBreaker :=
  ops.foldl breakerStep (CircuitBreaker.new T tmo)

/-- The invariant of claim C10: whenever the breaker is `Open` or `HalfOpen`,
the failure counter has reached the threshold and a last-failure instant is
recorded. -/
def breakerInv (b : CircuitBreaker) : Prop :=
  (b.state = CircuitBreakerState.Open ∨ b.state = CircuitBreakerState.HalfOpen)
    → (b.threshold ≤ b.failure_count ∧ b.last_failure_time.isSome)

/-- A configuration whose fallback URL happens to contain the substring
`"default"`; every field is otherwise the default. -/
def cfgFallbackNamedDefault : Config :=
  { Config.defaults with fallback_processor_url := "http://default-backup:8080" }

/-- The fee law of claim C7, as a predicate on one stored record. -/
def feeLawRecord (p : Payment) : Prop :=
  ((p.processor = "default" ∨ p.processor = "fallback")
      → p.fee = p.amount / 20)
  ∧ ((p.processor = "pending" ∨ p.processor = "failed") → p.fee = 0)

/-- All records currently in a ledger satisfy the fee law. -/
def ledgerFeeLaw (l : List (String × Payment)) : Prop :=
  ∀ e ∈ l, feeLawRecord e.2

/-- Query filters of `GET /payments-summary` (`SummaryFilters` in the source;
parsed from the `de`/`ate` query parameters and passed through unused). -/
structure SummaryFilters where
  from_date : Option String
  to_date : Option String
deriving DecidableEq

/-- Aggregate returned by `PaymentService::get_summary`. -/
structure SummaryResult where
  total_amount_cents : Nat
  total_fee_cents : Nat
  count : Nat
  count_processed : Nat
  count_failed : Nat
deriving DecidableEq

/-- The body of `get_summary`'s loop over `storage.iter()`, flattened: every
record bumps `count`; a record with `processed_at` set contributes its amount
and fee and is counted as processed when its tag differs from `"failed"`,
else as failed. -/
def getSummaryLoop : List (String × Payment) → SummaryResult → SummaryResult
  | [], acc => acc
  | e :: rest, acc =>
      getSummaryLoop rest
        (if e.2.processed_at.isSome then
          (if e.2.processor ≠ "failed" then
            { acc with
                count := acc.count + 1,
                total_amount_cents := acc.total_amount_cents + e.2.amount,
                total_fee_cents := acc.total_fee_cents + e.2.fee,
                count_processed := acc.count_processed + 1 }
          else
            { acc with
                count := acc.count + 1,
                total_amount_cents := acc.total_amount_cents + e.2.amount,
                total_fee_cents := acc.total_fee_cents + e.2.fee,
                count_failed := acc.count_failed + 1 })
        else { acc with count := acc.count + 1 })

/-- `PaymentService::get_summary`: the `filters` argument is received but not
applied (the source binds it as `_filters`); the aggregation runs over the
whole ledger from zeroed accumulators. -/
def getSummary (_filters : SummaryFilters) (l : List (String × Payment)) :
    SummaryResult :=
  getSummaryLoop l
    { total_amount_cents := 0, total_fee_cents := 0, count := 0
    , count_processed := 0, count_failed := 0 }

/-- Number of records whose tag is `"default"` or `"fallback"`. -/
def countProcessedRecords : List (String × Payment) → Nat
  | [] => 0
  | e :: rest =>
      (if e.2.processor = "default" ∨ e.2.processor = "fallback" then 1 else 0)
        + countProcessedRecords rest

/-- Number of records whose tag is `"failed"`. -/
def countFailedRecords : List (String × Payment) → Nat
  | [] => 0
  | e :: rest =>
      (if e.2.processor = "failed" then 1 else 0) + countFailedRecords rest

/-- The data-model invariant of the spec: `processed_at` is present iff the
tag is `default`, `fallback` or `failed`. -/
def datedIffProcessed (l : List (String × Payment)) : Prop :=
  ∀ e ∈ l, (e.2.processed_at.isSome
    ↔ (e.2.processor = "default" ∨ e.2.processor = "fallback"
        ∨ e.2.processor = "failed"))

/-- Ids of the submission events of a trace, in order. -/
def submitIds : List Event → List String
  | [] => []
  | Event.submit req :: rest => req.id :: submitIds rest
  | Event.work _ _ _ :: rest => submitIds rest
  | Event.close :: rest => submitIds rest

/-- Inductive invariant for traces that never close the queue: the channel is
open, the submitted counter equals processed + failed + queued, and every
pending record has a matching item still in the queue. -/
def invNoClose (s : SysState) : Prop :=
  s.closed = false
  ∧ s.submitted = s.processed + s.failed + s.queue.length
  ∧ (∀ e ∈ s.ledger, e.2.processor = "pending" → ∃ r ∈ s.queue, r.id = e.1)

/-- Inductive invariant for traces whose submissions all use distinct ids:
conservation holds in every state (with the pending count), ledger keys are
unique, every queued item's record is still pending, queued ids are unique,
and every queued id is a ledger key. -/
def invDistinct (s : SysState) : Prop :=
  s.submitted = s.processed + s.failed + countPending s.ledger
  ∧ (ledgerKeys s.ledger).Nodup
  ∧ (∀ r ∈ s.queue, pendingAt s.ledger r.id = true)
  ∧ (s.queue.map (fun r => r.id)).Nodup
  ∧ (∀ r ∈ s.queue, r.id ∈ ledgerKeys s.ledger)

example :
    ((CircuitBreaker.new 2 5).recordFailure 0).state = .Closed := by decide

example :
    (((CircuitBreaker.new 2 5).recordFailure 0).recordFailure 3).state
      = .Open := by decide

example :
    ((((CircuitBreaker.new 2 5).recordFailure 0).recordFailure 3).canExecute
      7).1 = false := by decide

example :
    ((((CircuitBreaker.new 2 5).recordFailure 0).recordFailure 3).canExecute
      8) = (true, { ((CircuitBreaker.new 2 5).recordFailure 0).recordFailure 3
                      with state := .HalfOpen }) := by decide

example : strContains "http://payment-processor-default:8080" "default" = true := by decide

example : strContains "http://payment-processor-fallback:8080" "default" = false := by decide

example : strContains "abc" "" = true := by decide

example :
    (processPayment Config.defaults (ClientState.new Config.defaults)
      ⟨"x", 10000⟩ false true 0).payment
    = some { id := "x", amount := 10000, processor := "fallback", fee := 500
           , processed_at := some 0 } := by decide

example :
    (processPayment Config.defaults (ClientState.new Config.defaults)
      ⟨"a", 1000⟩ true true 0).httpCalls
    = [Config.defaults.default_processor_url] := by decide

example :
    (sysRun Config.defaults
      [.submit ⟨"a", 1000⟩, .work true true 7]).ledger
    = [("a", { id := "a", amount := 1000, processor := "default", fee := 50
             , processed_at := some 7 })] := by decide

example :
    (sysRun Config.defaults [.close, .submit ⟨"d", 5⟩, .submit ⟨"d", 5⟩])
    = { ledger := [("d", mkPendingPayment ⟨"d", 5⟩)], queue := []
      , closed := true, submitted := 2, processed := 0, failed := 0
      , client := ClientState.new Config.defaults } := by decide

theorem ledgerGet_remove_self (l : List (String × Payment)) (k : String) :
    ledgerGet (ledgerRemove l k) k = none := by
  induction l with
  | nil => rfl
  | cons e rest ih =>
      by_cases h : e.1 = k
      · simpa [ledgerRemove, h] using ih
      · simp [ledgerRemove, ledgerGet, h, ih]

theorem ledgerGet_remove_ne (l : List (String × Payment)) (k k' : String)
    (h : k ≠ k') : ledgerGet (ledgerRemove l k') k = ledgerGet l k := by
  induction l with
  | nil => rfl
  | cons e rest ih =>
      by_cases he : e.1 = k'
      · have hne : ¬ (k' = k) := fun hh => h hh.symm
        simp [ledgerRemove, ledgerGet, he, hne, ih]
      · simp [ledgerRemove, ledgerGet, he, ih]

theorem ledgerGet_insert (l : List (String × Payment)) (k' : String)
    (v : Payment) (k : String) :
    ledgerGet (ledgerInsert l k' v) k
      = if k = k' then some v else ledgerGet l k := by
  by_cases h : k = k'
  · simp [ledgerInsert, ledgerGet, h]
  · have h' : ¬ (k' = k) := fun hh => h hh.symm
    simp [ledgerInsert, ledgerGet, h, h', ledgerGet_remove_ne l k k' h]

theorem ledgerKeys_remove_not_mem (l : List (String × Payment)) (k : String) :
    k ∉ ledgerKeys (ledgerRemove l k) := by
  induction l with
  | nil => simp [ledgerRemove, ledgerKeys]
  | cons e rest ih =>
      by_cases h : e.1 = k
      · simpa [ledgerRemove, h] using ih
      · simp [ledgerRemove, ledgerKeys, h]
        exact ⟨fun hh => h hh.symm, ih⟩

theorem ledgerKeys_remove_sub (l : List (String × Payment)) (k k' : String)
    (h : k' ∈ ledgerKeys (ledgerRemove l k)) : k' ∈ ledgerKeys l := by
  induction l with
  | nil => simp [ledgerRemove, ledgerKeys] at h
  | cons e rest ih =>
      by_cases he : e.1 = k
      · rw [ledgerRemove] at h
        simp [he] at h
        simp [ledgerKeys]
        exact Or.inr (ih h)
      · rw [ledgerRemove] at h
        simp [he, ledgerKeys] at h ⊢
        rcases h with h | h
        · exact Or.inl h
        · exact Or.inr (ih h)

theorem ledgerRemove_nodup (l : List (String × Payment)) (k : String)
    (h : (ledgerKeys l).Nodup) : (ledgerKeys (ledgerRemove l k)).Nodup := by
  induction l with
  | nil => simp [ledgerRemove, ledgerKeys]
  | cons e rest ih =>
      rw [ledgerKeys, List.nodup_cons] at h
      by_cases he : e.1 = k
      · simpa [ledgerRemove, he] using ih h.2
      · rw [ledgerRemove]
        simp only [he, if_false]
        rw [ledgerKeys, List.nodup_cons]
        exact ⟨fun hmem => h.1 (ledgerKeys_remove_sub rest k e.1 hmem), ih h.2⟩

theorem ledgerInsert_nodup (l : List (String × Payment)) (k : String)
    (v : Payment) (h : (ledgerKeys l).Nodup) :
    (ledgerKeys (ledgerInsert l k v)).Nodup := by
  rw [ledgerInsert, ledgerKeys, List.nodup_cons]
  exact ⟨ledgerKeys_remove_not_mem l k, ledgerRemove_nodup l k h⟩

theorem ledgerRemove_of_not_mem (l : List (String × Payment)) (k : String)
    (h : k ∉ ledgerKeys l) : ledgerRemove l k = l := by
  induction l with
  | nil => rfl
  | cons e rest ih =>
      rw [ledgerKeys, List.mem_cons] at h
      push_neg at h
      have hne : ¬ (e.1 = k) := fun hh => h.1 hh.symm
      rw [ledgerRemove]
      simp only [hne, if_false]
      rw [ih h.2]

theorem ledgerGet_none_of_not_mem (l : List (String × Payment)) (k : String)
    (h : k ∉ ledgerKeys l) : ledgerGet l k = none := by
  induction l with
  | nil => rfl
  | cons e rest ih =>
      rw [ledgerKeys, List.mem_cons] at h
      push_neg at h
      have hne : ¬ (e.1 = k) := fun hh => h.1 hh.symm
      rw [ledgerGet]
      simp only [hne, if_false]
      exact ih h.2

theorem countPending_remove (l : List (String × Payment)) (k : String)
    (h : (ledgerKeys l).Nodup) :
    countPending l
      = countPending (ledgerRemove l k) + (if pendingAt l k then 1 else 0) := by
  induction l with
  | nil => rfl
  | cons e rest ih =>
      rw [ledgerKeys, List.nodup_cons] at h
      by_cases he : e.1 = k
      · have hnm : k ∉ ledgerKeys rest := he ▸ h.1
        rw [ledgerRemove]
        simp only [he, if_true]
        rw [ledgerRemove_of_not_mem rest k hnm]
        rw [countPending, pendingAt, ledgerGet]
        simp only [he, if_true, decide_eq_true_eq]
        omega
      · rw [ledgerRemove]
        simp only [he, if_false]
        rw [countPending, countPending, pendingAt, ledgerGet]
        simp only [he, if_false]
        rw [ih h.2, pendingAt]
        omega

theorem countPending_insert (l : List (String × Payment)) (k : String)
    (v : Payment) (h : (ledgerKeys l).Nodup) :
    countPending (ledgerInsert l k v) + (if pendingAt l k then 1 else 0)
      = countPending l + (if v.processor = "pending" then 1 else 0) := by
  rw [ledgerInsert, countPending, countPending_remove l k h]
  dsimp only
  omega

theorem pendingAt_insert_self (l : List (String × Payment)) (k : String)
    (v : Payment) :
    pendingAt (ledgerInsert l k v) k = decide (v.processor = "pending") := by
  rw [pendingAt, ledgerGet_insert]
  simp

theorem pendingAt_insert_ne (l : List (String × Payment)) (k k' : String)
    (v : Payment) (h : k' ≠ k) :
    pendingAt (ledgerInsert l k v) k' = pendingAt l k' := by
  rw [pendingAt, ledgerGet_insert]
  simp only [h, if_false]
  rfl

theorem mem_ledgerRemove_sub (l : List (String × Payment)) (k : String)
    (e : String × Payment) (h : e ∈ ledgerRemove l k) : e ∈ l := by
  induction l with
  | nil => simp [ledgerRemove] at h
  | cons a rest ih =>
      rw [ledgerRemove] at h
      by_cases ha : a.1 = k
      · simp only [ha, if_true] at h
        exact List.mem_cons_of_mem a (ih h)
      · simp only [ha, if_false, List.mem_cons] at h
        rcases h with h | h
        · exact h ▸ List.mem_cons_self a rest
        · exact List.mem_cons_of_mem a (ih h)

theorem mem_ledgerInsert (l : List (String × Payment)) (k : String)
    (v : Payment) (e : String × Payment) (h : e ∈ ledgerInsert l k v) :
    e = (k, v) ∨ e ∈ l := by
  rw [ledgerInsert, List.mem_cons] at h
  rcases h with h | h
  · exact Or.inl h
  · exact Or.inr (mem_ledgerRemove_sub l k e h)

theorem ledgerGet_insert_isSome (l : List (String × Payment)) (k' : String)
    (v : Payment) (k : String) (h : (ledgerGet l k).isSome) :
    (ledgerGet (ledgerInsert l k' v) k).isSome := by
  rw [ledgerGet_insert]
  by_cases hk : k = k'
  · simp [hk]
  · simpa [hk] using h

theorem submitAttempt_ledger (cap : Nat) (s : SysState) (req : PaymentRequest) :
    ((submitAttempt cap s req).2).ledger
      = ledgerInsert s.ledger req.id (mkPendingPayment req) := by
  rw [submitAttempt]
  split
  · rfl
  · split <;> rfl

/-- C1 (code bug): with queue capacity 2, a fresh open channel and the worker
consuming nothing, three `submit_payment` calls produce two accepted
responses while the third suspends on `send(..).await`; no call returns
`QueueFull`, so the number of 503 responses is 0, not 1 as claimed — the
tokio `mpsc::Sender::send` used by the source awaits capacity instead of
failing, and only a dropped receiver makes it return the error mapped to
`ServiceError::QueueFull`/503. -/
theorem submit_overload_blocks_without_503 :
    (submitMany 2 (SysState.init Config.defaults)
        [⟨"a", 1⟩, ⟨"b", 2⟩, ⟨"c", 3⟩]).1
      = [.accepted, .accepted, .blocked]
    ∧ ((submitMany 2 (SysState.init Config.defaults)
        [⟨"a", 1⟩, ⟨"b", 2⟩, ⟨"c", 3⟩]).1.filter
          (fun o => o = SubmitOutcome.rejected)).length = 0 := by
  decide

/-- C3 counterexample: a submission that does return `QueueFull` (channel
closed), for the fresh id `"x"` absent from the ledger, nevertheless leaves a
`pending` record under `"x"` — the pending insert precedes the failed send. -/
theorem rejected_submission_leaves_record :
    ledgerGet (sysRun Config.defaults [.close]).ledger "x" = none
    ∧ (submitAttempt 1000 (sysRun Config.defaults [.close]) ⟨"x", 7⟩).1
        = .rejected
    ∧ ledgerGet
        ((submitAttempt 1000 (sysRun Config.defaults [.close]) ⟨"x", 7⟩).2).ledger
        "x"
      = some (mkPendingPayment ⟨"x", 7⟩) := by
  decide

/-- C3 amended: every `submit_payment` call — accepted, rejected or blocked —
leaves a `pending` record for its id in the ledger, because the insert
precedes the enqueue attempt; in the capacity-2, worker-paused scenario the
three fresh submissions yield accepted, accepted, blocked (no 503), and the
ledger holds pending entries for all three ids. -/
theorem submission_always_leaves_pending_record :
    (∀ (cap : Nat) (s : SysState) (req : PaymentRequest),
        ledgerGet ((submitAttempt cap s req).2).ledger req.id
          = some (mkPendingPayment req))
    ∧ (submitMany 2 (SysState.init Config.defaults)
        [⟨"a", 1⟩, ⟨"b", 2⟩, ⟨"c", 3⟩]).1
      = [.accepted, .accepted, .blocked]
    ∧ (let final := (submitMany 2 (SysState.init Config.defaults)
          [⟨"a", 1⟩, ⟨"b", 2⟩, ⟨"c", 3⟩]).2
       ledgerGet final.ledger "a" = some (mkPendingPayment ⟨"a", 1⟩)
       ∧ ledgerGet final.ledger "b" = some (mkPendingPayment ⟨"b", 2⟩)
       ∧ ledgerGet final.ledger "c" = some (mkPendingPayment ⟨"c", 3⟩)) := by
  refine ⟨fun cap s req => ?_, by decide, by decide⟩
  rw [submitAttempt_ledger, ledgerGet_insert]
  simp

/-- C9: an accepted `POST /payments` has a `pending` record for its id in the
ledger at the moment the 202 response is produced (the insert precedes the
enqueue), and no later system step ever removes an id from the ledger, so a
summary taken after acceptance never misses the id. -/
theorem accepted_submission_in_ledger :
    (∀ (cap : Nat) (s : SysState) (req : PaymentRequest),
        (submitAttempt cap s req).1 = .accepted →
        ledgerGet ((submitAttempt cap s req).2).ledger req.id
          = some (mkPendingPayment req))
    ∧ (∀ (cfg : Config) (s : SysState) (ev : Event) (k : String),
        (ledgerGet s.ledger k).isSome →
        (ledgerGet (sysStep cfg s ev).ledger k).isSome) := by
  constructor
  · intro cap s req _
    rw [submitAttempt_ledger, ledgerGet_insert]
    simp
  · intro cfg s ev k h
    cases ev with
    | submit req =>
        have hs : (sysStep cfg s (.submit req)).ledger
            = ledgerInsert s.ledger req.id (mkPendingPayment req) := by
          simp only [sysStep, submitCompleted, submitCore]
          split <;> rfl
        rw [hs]
        exact ledgerGet_insert_isSome _ _ _ _ h
    | work dOk fOk now =>
        cases hq : s.queue with
        | nil =>
            have hs : sysStep cfg s (.work dOk fOk now) = s := by
              simp only [sysStep, workStep, hq]
            rw [hs]
            exact h
        | cons req rest =>
            cases hp : (processPayment cfg s.client req dOk fOk now).payment with
            | some p =>
                have hs : (sysStep cfg s (.work dOk fOk now)).ledger
                    = ledgerInsert s.ledger req.id p := by
                  simp only [sysStep, workStep, hq, hp]
                rw [hs]
                exact ledgerGet_insert_isSome _ _ _ _ h
            | none =>
                have hs : (sysStep cfg s (.work dOk fOk now)).ledger
                    = ledgerInsert s.ledger req.id (mkFailedPayment req now) := by
                  simp only [sysStep, workStep, hq, hp]
                rw [hs]
                exact ledgerGet_insert_isSome _ _ _ _ h
    | close => exact h

theorem failSeq_spec (T tmo : Nat) (hT : 1 ≤ T) (ts : List Nat) :
    failSeq T tmo ts
      = { state := if T ≤ ts.length then CircuitBreakerState.Open
                   else CircuitBreakerState.Closed
        , failure_count := ts.length
        , last_failure_time := ts.getLast?
        , threshold := T
        , timeout := tmo } := by
  induction ts using List.reverseRecOn with
  | nil =>
      have h0 : ¬ (T ≤ 0) := by omega
      simp [failSeq, CircuitBreaker.new, h0]
  | append_singleton l a ih =>
      have hstep : failSeq T tmo (l ++ [a])
          = (failSeq T tmo l).recordFailure a := by
        rw [failSeq, failSeq, List.foldl_concat]
      rw [hstep, ih, CircuitBreaker.recordFailure]
      dsimp only
      by_cases hle : T ≤ l.length + 1
      · simp [hle, List.getLast?_concat]
      · have hle2 : ¬ (T ≤ l.length) := by omega
        simp [hle, hle2, List.getLast?_concat]

/-- C5: for a fresh breaker with threshold `T ≥ 1` and positive timeout, after
exactly `T` consecutive `record_failure` calls (the last at instant `tl`),
`can_execute` returns `false` — leaving the breaker unchanged, hence on every
repeated call — as long as less than `timeout` has elapsed since the last
failure; the first call at an instant with `timeout` elapsed returns `true`
and leaves the breaker in `HalfOpen`. -/
theorem breaker_trip_spec (T tmo : Nat) (hT : 1 ≤ T) (htmo : 1 ≤ tmo)
    (ts : List Nat) (hlen : ts.length = T) (tl : Nat)
    (hlast : ts.getLast? = some tl) :
    (∀ now, now < tl + tmo →
        (failSeq T tmo ts).canExecute now = (false, failSeq T tmo ts))
    ∧ (∀ now, tl + tmo ≤ now →
        ((failSeq T tmo ts).canExecute now).1 = true
        ∧ ((failSeq T tmo ts).canExecute now).2.state
            = CircuitBreakerState.HalfOpen) := by
  have hb : failSeq T tmo ts
      = { state := CircuitBreakerState.Open
        , failure_count := T
        , last_failure_time := some tl
        , threshold := T
        , timeout := tmo } := by
    rw [failSeq_spec T tmo hT ts, hlen, hlast]
    simp
  rw [hb]
  constructor
  · intro now hnow
    have hlt : ¬ (tmo ≤ now - tl) := by omega
    simp [CircuitBreaker.canExecute, hlt]
  · intro now hge
    have hle : tmo ≤ now - tl := by omega
    simp [CircuitBreaker.canExecute, hle]

/-- Concrete instance of `breaker_trip_spec` with threshold 1, timeout 1 and a
single failure at instant 0. -/
theorem breaker_trip_spec_witness :
    (failSeq 1 1 [0]).canExecute 0 = (false, failSeq 1 1 [0])
    ∧ ((failSeq 1 1 [0]).canExecute 1).1 = true
    ∧ ((failSeq 1 1 [0]).canExecute 1).2.state
        = CircuitBreakerState.HalfOpen := by
  have h := breaker_trip_spec 1 1 (by decide) (by decide) [0] (by decide) 0
    (by decide)
  exact ⟨h.1 0 (by decide), (h.2 1 (by decide)).1, (h.2 1 (by decide)).2⟩

theorem breakerStep_inv (b : CircuitBreaker) (op : BreakerOp)
    (h : breakerInv b) : breakerInv (breakerStep b op) := by
  cases op with
  | canExec now =>
      rw [breakerStep, CircuitBreaker.canExecute]
      cases hst : b.state with
      | Closed => exact h
      | Open =>
          cases hlf : b.last_failure_time with
          | none => exact h
          | some lf =>
              by_cases hto : b.timeout ≤ now - lf
              · simp only [hto, if_true]
                intro _
                exact ⟨(h (Or.inl hst)).1, by simp⟩
              · simp only [hto, if_false]
                exact h
      | HalfOpen => exact h
  | success =>
      rw [breakerStep, CircuitBreaker.recordSuccess]
      rintro (hst | hst) <;> exact absurd hst (by simp)
  | failure now =>
      rw [breakerStep, CircuitBreaker.recordFailure]
      by_cases hth : b.threshold ≤ b.failure_count + 1
      · simp only [hth, if_true]
        intro _
        exact ⟨hth, by simp⟩
      · simp only [hth, if_false]
        intro hst
        have hb := h hst
        exact ⟨Nat.le_trans hb.1 (Nat.le_succ _), by simp⟩

theorem foldl_breakerStep_inv (ops : List BreakerOp) :
    ∀ b, breakerInv b → breakerInv (ops.foldl breakerStep b) := by
  induction ops with
  | nil => exact fun b hb => hb
  | cons op rest ih =>
      intro b hb
      rw [List.foldl_cons]
      exact ih _ (breakerStep_inv b op hb)

theorem breakerRun_inv (T tmo : Nat) (ops : List BreakerOp) :
    breakerInv (breakerRun T tmo ops) := by
  rw [breakerRun]
  refine foldl_breakerStep_inv ops _ ?_
  rintro (hst | hst) <;> exact absurd hst (by simp [CircuitBreaker.new])

/-- C10: in every breaker state reachable from a fresh breaker by any sequence
of `can_execute`, `record_success` and `record_failure` calls, `Open` or
`HalfOpen` implies the failure counter has reached the threshold and a
last-failure instant is recorded; hence the `Open`-with-no-last-failure branch
of `can_execute` is unreachable, and a single `record_failure` in `HalfOpen`
returns the breaker to `Open`. -/
theorem breaker_reachable_invariant (T tmo : Nat) (ops : List BreakerOp) :
    breakerInv (breakerRun T tmo ops)
    ∧ ((breakerRun T tmo ops).state = CircuitBreakerState.HalfOpen →
        ∀ now, ((breakerRun T tmo ops).recordFailure now).state
          = CircuitBreakerState.Open)
    ∧ ((breakerRun T tmo ops).state = CircuitBreakerState.Open →
        (breakerRun T tmo ops).last_failure_time.isSome) := by
  have h := breakerRun_inv T tmo ops
  refine ⟨h, ?_, fun hst => (h (Or.inl hst)).2⟩
  intro hst now
  have hle : (breakerRun T tmo ops).threshold
      ≤ (breakerRun T tmo ops).failure_count + 1 :=
    Nat.le_trans (h (Or.inr hst)).1 (Nat.le_succ _)
  simp only [CircuitBreaker.recordFailure]
  rw [if_pos hle]

/-- Concrete instances of `breaker_reachable_invariant`: with threshold 1, a
failure at 0 then a probing `can_execute` at 1 reaches `HalfOpen`, where one
more failure reopens the breaker; the invariant's conclusion holds at the
`Open` state reached by a single failure. -/
theorem breaker_reachable_invariant_witness :
    ((breakerRun 1 1 [.failure 0, .canExec 1]).recordFailure 5).state
      = CircuitBreakerState.Open
    ∧ (breakerRun 1 1 [.failure 0]).last_failure_time.isSome
    ∧ ((breakerRun 1 1 [.failure 0]).threshold
        ≤ (breakerRun 1 1 [.failure 0]).failure_count
      ∧ (breakerRun 1 1 [.failure 0]).last_failure_time.isSome) := by
  refine ⟨(breaker_reachable_invariant 1 1 [.failure 0, .canExec 1]).2.1
      (by decide) 5,
    (breaker_reachable_invariant 1 1 [.failure 0]).2.2 (by decide),
    (breaker_reachable_invariant 1 1 [.failure 0]).1 (Or.inl (by decide))⟩

/-- Concrete instance of `accepted_submission_in_ledger`: an accepted
submission of id `"a"`, followed by one worker step, keeps `"a"` present. -/
theorem accepted_submission_in_ledger_witness :
    (submitAttempt 2 (SysState.init Config.defaults) ⟨"a", 1⟩).1
      = SubmitOutcome.accepted
    ∧ ledgerGet ((submitAttempt 2 (SysState.init Config.defaults)
        ⟨"a", 1⟩).2).ledger "a" = some (mkPendingPayment ⟨"a", 1⟩)
    ∧ (ledgerGet (sysStep Config.defaults
        ((submitAttempt 2 (SysState.init Config.defaults) ⟨"a", 1⟩).2)
        (.work true true 3)).ledger "a").isSome := by
  have h := accepted_submission_in_ledger
  exact ⟨by decide,
    h.1 2 (SysState.init Config.defaults) ⟨"a", 1⟩ (by decide),
    h.2 Config.defaults ((submitAttempt 2 (SysState.init Config.defaults)
      ⟨"a", 1⟩).2) (.work true true 3) "a" (by decide)⟩

/-- C6: whenever the default breaker permits execution and the default
upstream would answer 2xx, the dispatched request issues exactly one HTTP
call — to the default upstream — and the returned outcome is the default
upstream's success record; the fallback upstream is never contacted. -/
theorem router_prefers_default (cfg : Config) (cs : ClientState)
    (req : PaymentRequest) (fallbackOk : Bool) (now : Nat)
    (hexec : (cs.default_breaker.canExecute now).1 = true) :
    (processPayment cfg cs req true fallbackOk now).httpCalls
      = [cfg.default_processor_url]
    ∧ (processPayment cfg cs req true fallbackOk now).payment
      = some (mkSuccessPayment cfg.default_processor_url req now) := by
  cases hcc : cs.default_breaker.canExecute now with
  | mk canE b1 =>
      rw [hcc] at hexec
      dsimp only at hexec
      subst hexec
      constructor <;> simp [processPayment, tryProcessor, hcc, sendRequest]

/-- Concrete instance of `router_prefers_default` at the default
configuration and a fresh client. -/
theorem router_prefers_default_witness :
    (processPayment Config.defaults (ClientState.new Config.defaults)
        ⟨"a", 1000⟩ true false 0).httpCalls
      = [Config.defaults.default_processor_url]
    ∧ (processPayment Config.defaults (ClientState.new Config.defaults)
        ⟨"a", 1000⟩ true false 0).payment
      = some (mkSuccessPayment Config.defaults.default_processor_url
          ⟨"a", 1000⟩ 0) := by
  exact router_prefers_default Config.defaults (ClientState.new Config.defaults)
    ⟨"a", 1000⟩ false 0 (by decide)

/-- C2 counterexample: with the fallback upstream reachable at a URL that
contains the substring `"default"`, a request that fails on the default
upstream and succeeds (2xx) on the fallback upstream — both upstreams are
contacted, in order — is recorded with processor tag `"default"`, not
`"fallback"`: `send_request` derives the tag from `url.contains("default")`,
not from the upstream tried. -/
theorem processor_tag_from_url_counterexample :
    (processPayment cfgFallbackNamedDefault
        (ClientState.new cfgFallbackNamedDefault) ⟨"x", 10000⟩ false true 0).httpCalls
      = [cfgFallbackNamedDefault.default_processor_url,
         cfgFallbackNamedDefault.fallback_processor_url]
    ∧ ((processPayment cfgFallbackNamedDefault
        (ClientState.new cfgFallbackNamedDefault) ⟨"x", 10000⟩ false true 0).payment.map
          (fun p => p.processor))
      = some "default" := by
  decide

/-- C2 amended: the processor tag recorded on a 2xx response equals the tag
tried provided the configured URLs discriminate as the code assumes — the
default URL contains the substring `"default"` and the fallback URL does not
(true of the default configuration). Under that proviso, a success under tag
`t` is recorded with processor field `t`. -/
theorem processor_tag_matches_tried (cfg : Config) (cs : ClientState)
    (t : String) (req : PaymentRequest) (ok : Bool) (now : Nat) (p : Payment)
    (hdef : strContains cfg.default_processor_url "default" = true)
    (hfb : strContains cfg.fallback_processor_url "default" = false)
    (hp : (tryProcessor cfg cs t req ok now).payment = some p) :
    p.processor = t := by
  by_cases ht : t = "default"
  · subst ht
    cases hcc : cs.default_breaker.canExecute now with
    | mk canE b1 =>
        simp only [tryProcessor, if_pos rfl, hcc] at hp
        cases canE with
        | false => simp at hp
        | true =>
            cases ok with
            | false => simp [sendRequest] at hp
            | true =>
                simp only [sendRequest, if_pos rfl] at hp
                obtain rfl : mkSuccessPayment cfg.default_processor_url req now = p := by
                  simpa using hp
                simp [mkSuccessPayment, hdef]
  · by_cases ht2 : t = "fallback"
    · subst ht2
      cases hcc : cs.fallback_breaker.canExecute now with
      | mk canE b1 =>
          simp only [tryProcessor, ht, if_neg ht, if_pos rfl, hcc] at hp
          cases canE with
          | false => simp at hp
          | true =>
              cases ok with
              | false => simp [sendRequest] at hp
              | true =>
                  simp only [sendRequest, if_pos rfl] at hp
                  obtain rfl : mkSuccessPayment cfg.fallback_processor_url req now = p := by
                    simpa using hp
                  simp [mkSuccessPayment, hfb]
    · simp only [tryProcessor, if_neg ht, if_neg ht2] at hp
      simp at hp

/-- Concrete instance of `processor_tag_matches_tried`: under the default
configuration a fallback success is recorded as `"fallback"`. -/
theorem processor_tag_matches_tried_witness :
    (mkSuccessPayment Config.defaults.fallback_processor_url
        ⟨"x", 10000⟩ 0).processor = "fallback" := by
  exact processor_tag_matches_tried Config.defaults
    (ClientState.new Config.defaults) "fallback" ⟨"x", 10000⟩ true 0
    (mkSuccessPayment Config.defaults.fallback_processor_url ⟨"x", 10000⟩ 0)
    (by decide) (by decide) (by decide)

theorem feeLawRecord_pending (req : PaymentRequest) :
    feeLawRecord (mkPendingPayment req) := by
  constructor
  · rintro (h | h) <;> simp [mkPendingPayment] at h
  · intro _
    rfl

theorem feeLawRecord_failed (req : PaymentRequest) (now : Nat) :
    feeLawRecord (mkFailedPayment req now) := by
  constructor
  · rintro (h | h) <;> simp [mkFailedPayment] at h
  · intro _
    rfl

theorem feeLawRecord_success (url : String) (req : PaymentRequest) (now : Nat) :
    feeLawRecord (mkSuccessPayment url req now) := by
  constructor
  · intro _
    rfl
  · rintro (h | h) <;>
      · rw [mkSuccessPayment] at h
        dsimp only at h
        by_cases hc : strContains url "default" = true <;> simp [hc] at h

theorem tryProcessor_default_payment (cfg : Config) (cs : ClientState)
    (req : PaymentRequest) (ok : Bool) (now : Nat) :
    (tryProcessor cfg cs "default" req ok now).payment = none
    ∨ (tryProcessor cfg cs "default" req ok now).payment
        = some (mkSuccessPayment cfg.default_processor_url req now) := by
  cases hcc : cs.default_breaker.canExecute now with
  | mk canE b1 =>
      simp only [tryProcessor, if_pos rfl, hcc]
      cases canE
      · simp
      · cases ok <;> simp [sendRequest]

theorem tryProcessor_fallback_payment (cfg : Config) (cs : ClientState)
    (req : PaymentRequest) (ok : Bool) (now : Nat) :
    (tryProcessor cfg cs "fallback" req ok now).payment = none
    ∨ (tryProcessor cfg cs "fallback" req ok now).payment
        = some (mkSuccessPayment cfg.fallback_processor_url req now) := by
  have hne : ¬ (("fallback" : String) = "default") := by decide
  cases hcc : cs.fallback_breaker.canExecute now with
  | mk canE b1 =>
      simp only [tryProcessor, if_neg hne, if_pos rfl, hcc]
      cases canE
      · simp
      · cases ok <;> simp [sendRequest]

theorem processPayment_payment_shape (cfg : Config) (cs : ClientState)
    (req : PaymentRequest) (dOk fOk : Bool) (now : Nat) (p : Payment)
    (hp : (processPayment cfg cs req dOk fOk now).payment = some p) :
    p = mkSuccessPayment cfg.default_processor_url req now
    ∨ p = mkSuccessPayment cfg.fallback_processor_url req now := by
  rcases tryProcessor_default_payment cfg cs req dOk now with h1 | h1
  · simp only [processPayment, h1] at hp
    rcases tryProcessor_fallback_payment cfg
        (tryProcessor cfg cs "default" req dOk now).client req fOk now with
      h2 | h2
    · rw [h2] at hp
      simp at hp
    · rw [h2] at hp
      simp at hp
      exact Or.inr hp.symm
  · simp only [processPayment, h1] at hp
    simp at hp
    exact Or.inl hp.symm

theorem sysStep_feeLaw (cfg : Config) (s : SysState) (ev : Event)
    (h : ledgerFeeLaw s.ledger) : ledgerFeeLaw (sysStep cfg s ev).ledger := by
  cases ev with
  | submit req =>
      have hl : (sysStep cfg s (.submit req)).ledger
          = ledgerInsert s.ledger req.id (mkPendingPayment req) := by
        simp only [sysStep, submitCompleted, submitCore]
        split <;> rfl
      rw [hl]
      intro e he
      rcases mem_ledgerInsert _ _ _ _ he with he | he
      · rw [he]
        exact feeLawRecord_pending req
      · exact h e he
  | work dOk fOk now =>
      cases hq : s.queue with
      | nil =>
          have hl : sysStep cfg s (.work dOk fOk now) = s := by
            simp only [sysStep, workStep, hq]
          rw [hl]
          exact h
      | cons req rest =>
          cases hp : (processPayment cfg s.client req dOk fOk now).payment with
          | some p =>
              have hl : (sysStep cfg s (.work dOk fOk now)).ledger
                  = ledgerInsert s.ledger req.id p := by
                simp only [sysStep, workStep, hq, hp]
              rw [hl]
              intro e he
              rcases mem_ledgerInsert _ _ _ _ he with he | he
              · rw [he]
                rcases processPayment_payment_shape cfg s.client req dOk fOk
                    now p hp with hs | hs <;>
                  · rw [hs]
                    exact feeLawRecord_success _ req now
              · exact h e he
          | none =>
              have hl : (sysStep cfg s (.work dOk fOk now)).ledger
                  = ledgerInsert s.ledger req.id (mkFailedPayment req now) := by
                simp only [sysStep, workStep, hq, hp]
              rw [hl]
              intro e he
              rcases mem_ledgerInsert _ _ _ _ he with he | he
              · rw [he]
                exact feeLawRecord_failed req now
              · exact h e he
  | close => exact h

/-- C7: every record ever present in the ledger of a reachable system state
obeys the fee law — a `"default"`/`"fallback"` record carries
`fee = amount / 20` (truncating division) and a `"pending"`/`"failed"` record
carries `fee = 0`. -/
theorem foldl_sysStep_feeLaw (cfg : Config) (events : List Event) :
    ∀ s : SysState, ledgerFeeLaw s.ledger
      → ledgerFeeLaw (events.foldl (sysStep cfg) s).ledger := by
  induction events with
  | nil => exact fun s hs => hs
  | cons ev rest ih =>
      intro s hs
      rw [List.foldl_cons]
      exact ih _ (sysStep_feeLaw cfg s ev hs)

theorem sysRun_feeLaw (cfg : Config) (events : List Event) :
    ledgerFeeLaw (sysRun cfg events).ledger := by
  rw [sysRun]
  refine foldl_sysStep_feeLaw cfg events _ ?_
  intro e he
  simp [SysState.init] at he

/-- C7: every record ever present in the ledger of a reachable system state
obeys the fee law — a `"default"`/`"fallback"` record carries
`fee = amount / 20` (truncating division) and a `"pending"`/`"failed"` record
carries `fee = 0`. -/
theorem fee_law (cfg : Config) (events : List Event) (e : String × Payment)
    (he : e ∈ (sysRun cfg events).ledger) :
    ((e.2.processor = "default" ∨ e.2.processor = "fallback")
        → e.2.fee = e.2.amount / 20)
    ∧ ((e.2.processor = "pending" ∨ e.2.processor = "failed")
        → e.2.fee = 0) := by
  exact sysRun_feeLaw cfg events e he

/-- Concrete instance of `fee_law` on the happy-path trace: the processed
record of a 1000-cent payment carries fee 50. -/
theorem fee_law_witness :
    (mkSuccessPayment Config.defaults.default_processor_url
        ⟨"a", 1000⟩ 7).fee = 50 := by
  have h := fee_law Config.defaults [.submit ⟨"a", 1000⟩, .work true true 7]
    ("a", mkSuccessPayment Config.defaults.default_processor_url ⟨"a", 1000⟩ 7)
    (by decide)
  exact h.1 (Or.inl (by decide))

theorem getSummaryLoop_counts (l : List (String × Payment))
    (hinv : datedIffProcessed l) :
    ∀ acc : SummaryResult,
      (getSummaryLoop l acc).count = acc.count + l.length
      ∧ (getSummaryLoop l acc).count_processed
          = acc.count_processed + countProcessedRecords l
      ∧ (getSummaryLoop l acc).count_failed
          = acc.count_failed + countFailedRecords l := by
  induction l with
  | nil => intro acc; exact ⟨rfl, rfl, rfl⟩
  | cons e rest ih =>
      intro acc
      have hhead := hinv e (List.mem_cons_self e rest)
      have hrest : datedIffProcessed rest :=
        fun x hx => hinv x (List.mem_cons_of_mem e hx)
      rw [getSummaryLoop, countProcessedRecords, countFailedRecords,
        List.length_cons]
      cases hdate : e.2.processed_at.isSome with
      | false =>
          have hnp : ¬ (e.2.processor = "default" ∨ e.2.processor = "fallback") := by
            intro hc
            have h := hhead.mpr (by tauto)
            rw [hdate] at h
            exact Bool.false_ne_true h
          have hnf : ¬ (e.2.processor = "failed") := by
            intro hc
            have h := hhead.mpr (by tauto)
            rw [hdate] at h
            exact Bool.false_ne_true h
          simp only [hdate, Bool.false_eq_true, if_false, hnp, hnf]
          obtain ⟨h1, h2, h3⟩ := ih hrest { acc with count := acc.count + 1 }
          rw [h1, h2, h3]
          refine ⟨?_, ?_, ?_⟩ <;> simp <;> omega
      | true =>
          by_cases hf : e.2.processor = "failed"
          · have hnp : ¬ (e.2.processor = "default" ∨ e.2.processor = "fallback") := by
              rw [hf]
              rintro (hc | hc) <;> simp at hc
            simp only [hdate, if_true, hf, ne_eq, not_true_eq_false,
              if_false, hnp]
            obtain ⟨h1, h2, h3⟩ := ih hrest { acc with count := acc.count + 1, total_amount_cents := acc.total_amount_cents + e.2.amount, total_fee_cents := acc.total_fee_cents + e.2.fee, count_failed := acc.count_failed + 1 }
            rw [h1, h2, h3]
            refine ⟨?_, ?_, ?_⟩ <;> simp <;> omega
          · have hp : e.2.processor = "default" ∨ e.2.processor = "fallback" := by
              rcases hhead.mp hdate with hc | hc | hc
              · exact Or.inl hc
              · exact Or.inr hc
              · exact absurd hc hf
            simp only [hdate, if_true, hf, ne_eq, not_false_eq_true, hp]
            obtain ⟨h1, h2, h3⟩ := ih hrest { acc with count := acc.count + 1, total_amount_cents := acc.total_amount_cents + e.2.amount, total_fee_cents := acc.total_fee_cents + e.2.fee, count_processed := acc.count_processed + 1 }
            rw [h1, h2, h3]
            refine ⟨?_, ?_, ?_⟩ <;> simp <;> omega

/-- C8: on any ledger satisfying the data-model invariant (`processed_at`
present iff the tag is `default`, `fallback` or `failed`), `get_summary`
ignores the `de`/`ate` filters entirely, counts every record (pending ones
included) in `count`, counts exactly the `default`/`fallback` records in
`count_processed`, and exactly the `failed` records in `count_failed`;
pending records are counted in neither of the latter two. -/
theorem get_summary_spec (l : List (String × Payment))
    (hinv : datedIffProcessed l) :
    (∀ f f' : SummaryFilters, getSummary f l = getSummary f' l)
    ∧ ∀ f : SummaryFilters,
        (getSummary f l).count = l.length
        ∧ (getSummary f l).count_processed = countProcessedRecords l
        ∧ (getSummary f l).count_failed = countFailedRecords l := by
  constructor
  · intro f f'
    rfl
  · intro f
    obtain ⟨h1, h2, h3⟩ := getSummaryLoop_counts l hinv
      { total_amount_cents := 0, total_fee_cents := 0, count := 0
      , count_processed := 0, count_failed := 0 }
    rw [getSummary]
    exact ⟨by rw [h1]; simp, by rw [h2]; simp, by rw [h3]; simp⟩

/-- Concrete instance of `get_summary_spec` on a ledger holding one pending
and one processed record. -/
theorem get_summary_spec_witness :
    (getSummary ⟨some "2025-01-01", none⟩
        [("a", mkPendingPayment ⟨"a", 5⟩),
         ("b", mkSuccessPayment Config.defaults.default_processor_url
            ⟨"b", 100⟩ 3)]).count = 2
    ∧ (getSummary ⟨some "2025-01-01", none⟩
        [("a", mkPendingPayment ⟨"a", 5⟩),
         ("b", mkSuccessPayment Config.defaults.default_processor_url
            ⟨"b", 100⟩ 3)]).count_processed = 1
    ∧ (getSummary ⟨some "2025-01-01", none⟩
        [("a", mkPendingPayment ⟨"a", 5⟩),
         ("b", mkSuccessPayment Config.defaults.default_processor_url
            ⟨"b", 100⟩ 3)]).count_failed = 0
    ∧ getSummary ⟨some "2025-01-01", none⟩
        [("a", mkPendingPayment ⟨"a", 5⟩),
         ("b", mkSuccessPayment Config.defaults.default_processor_url
            ⟨"b", 100⟩ 3)]
      = getSummary ⟨none, some "2026-01-01"⟩
        [("a", mkPendingPayment ⟨"a", 5⟩),
         ("b", mkSuccessPayment Config.defaults.default_processor_url
            ⟨"b", 100⟩ 3)] := by
  have h := get_summary_spec
    [("a", mkPendingPayment ⟨"a", 5⟩),
     ("b", mkSuccessPayment Config.defaults.default_processor_url
        ⟨"b", 100⟩ 3)]
    (by intro e he; fin_cases he <;> decide)
  obtain ⟨hc1, hc2, hc3⟩ := h.2 ⟨some "2025-01-01", none⟩
  exact ⟨by rw [hc1]; rfl, by rw [hc2]; rfl, by rw [hc3]; rfl,
    h.1 ⟨some "2025-01-01", none⟩ ⟨none, some "2026-01-01"⟩⟩

theorem mem_ledgerRemove_key_ne (l : List (String × Payment)) (k : String)
    (e : String × Payment) (h : e ∈ ledgerRemove l k) : e.1 ≠ k := by
  induction l with
  | nil => simp [ledgerRemove] at h
  | cons a rest ih =>
      rw [ledgerRemove] at h
      by_cases ha : a.1 = k
      · simp only [ha, if_true] at h
        exact ih h
      · simp only [ha, if_false, List.mem_cons] at h
        rcases h with h | h
        · rw [h]
          exact ha
        · exact ih h

theorem mem_ledgerKeys_remove_of_ne (l : List (String × Payment))
    (k k' : String) (hk : k ∈ ledgerKeys l) (hne : k ≠ k') :
    k ∈ ledgerKeys (ledgerRemove l k') := by
  induction l with
  | nil => simp [ledgerKeys] at hk
  | cons a rest ih =>
      rw [ledgerKeys, List.mem_cons] at hk
      rw [ledgerRemove]
      by_cases ha : a.1 = k'
      · simp only [ha, if_true]
        rcases hk with hk | hk
        · exact absurd (hk.symm ▸ ha) hne
        · exact ih hk
      · simp only [ha, if_false]
        rw [ledgerKeys, List.mem_cons]
        rcases hk with hk | hk
        · exact Or.inl hk
        · exact Or.inr (ih hk)

theorem mem_ledgerKeys_insert_of_mem (l : List (String × Payment))
    (k k' : String) (v : Payment) (hk : k ∈ ledgerKeys l) :
    k ∈ ledgerKeys (ledgerInsert l k' v) := by
  rw [ledgerInsert, ledgerKeys, List.mem_cons]
  by_cases hkk : k = k'
  · exact Or.inl hkk
  · exact Or.inr (mem_ledgerKeys_remove_of_ne l k k' hk hkk)

theorem mem_ledgerKeys_insert_self (l : List (String × Payment))
    (k : String) (v : Payment) : k ∈ ledgerKeys (ledgerInsert l k v) := by
  rw [ledgerInsert, ledgerKeys, List.mem_cons]
  exact Or.inl rfl

theorem countPending_insert_fresh (l : List (String × Payment)) (k : String)
    (v : Payment) (h : k ∉ ledgerKeys l) :
    countPending (ledgerInsert l k v)
      = countPending l + (if v.processor = "pending" then 1 else 0) := by
  rw [ledgerInsert, ledgerRemove_of_not_mem l k h, countPending]
  dsimp only
  omega

theorem countPending_zero_of_no_pending (l : List (String × Payment))
    (h : ∀ e ∈ l, ¬ e.2.processor = "pending") : countPending l = 0 := by
  induction l with
  | nil => rfl
  | cons e rest ih =>
      rw [countPending]
      have he := h e (List.mem_cons_self e rest)
      simp only [he, if_false]
      rw [ih (fun x hx => h x (List.mem_cons_of_mem e hx))]

theorem mkSuccessPayment_processor_ne_pending (url : String)
    (req : PaymentRequest) (now : Nat) :
    ¬ (mkSuccessPayment url req now).processor = "pending" := by
  rw [mkSuccessPayment]
  dsimp only
  by_cases hc : strContains url "default" = true <;> simp [hc]

theorem processPayment_processor_ne_pending (cfg : Config) (cs : ClientState)
    (req : PaymentRequest) (dOk fOk : Bool) (now : Nat) (p : Payment)
    (hp : (processPayment cfg cs req dOk fOk now).payment = some p) :
    ¬ p.processor = "pending" := by
  rcases processPayment_payment_shape cfg cs req dOk fOk now p hp with hs | hs <;>
    · rw [hs]
      exact mkSuccessPayment_processor_ne_pending _ req now

theorem mem_ledgerInsert_strong (l : List (String × Payment)) (k : String)
    (v : Payment) (e : String × Payment) (h : e ∈ ledgerInsert l k v) :
    e = (k, v) ∨ (e ∈ l ∧ e.1 ≠ k) := by
  rw [ledgerInsert, List.mem_cons] at h
  rcases h with h | h
  · exact Or.inl h
  · exact Or.inr ⟨mem_ledgerRemove_sub l k e h, mem_ledgerRemove_key_ne l k e h⟩

theorem mem_ledgerKeys_insert_elim (l : List (String × Payment))
    (k k' : String) (v : Payment) (h : k ∈ ledgerKeys (ledgerInsert l k' v)) :
    k = k' ∨ k ∈ ledgerKeys l := by
  rw [ledgerInsert, ledgerKeys, List.mem_cons] at h
  rcases h with h | h
  · exact Or.inl h
  · exact Or.inr (ledgerKeys_remove_sub l k' k h)

theorem nodup_append_singleton {α : Type} (xs : List α) (x : α)
    (h : xs.Nodup) (hx : x ∉ xs) : (xs ++ [x]).Nodup := by
  induction xs with
  | nil => simp
  | cons a as ih =>
      rw [List.nodup_cons] at h
      rw [List.mem_cons] at hx
      push_neg at hx
      rw [List.cons_append, List.nodup_cons]
      refine ⟨?_, ih h.2 hx.2⟩
      rw [List.mem_append, List.mem_singleton]
      rintro (hm | hm)
      · exact h.1 hm
      · exact hx.1 hm.symm

theorem sysStep_submit_eq (cfg : Config) (s : SysState) (req : PaymentRequest) :
    sysStep cfg s (.submit req)
      = (if s.closed then
          { s with submitted := s.submitted + 1
                 , ledger := ledgerInsert s.ledger req.id (mkPendingPayment req) }
        else
          { s with submitted := s.submitted + 1
                 , ledger := ledgerInsert s.ledger req.id (mkPendingPayment req)
                 , queue := s.queue ++ [req] }) := by
  rw [sysStep, submitCompleted, submitCore]

theorem sysStep_work_nil (cfg : Config) (s : SysState) (dOk fOk : Bool)
    (now : Nat) (hq : s.queue = []) : sysStep cfg s (.work dOk fOk now) = s := by
  simp only [sysStep, workStep, hq]

theorem sysStep_work_some (cfg : Config) (s : SysState) (dOk fOk : Bool)
    (now : Nat) (req : PaymentRequest) (rest : List PaymentRequest)
    (p : Payment) (hq : s.queue = req :: rest)
    (hp : (processPayment cfg s.client req dOk fOk now).payment = some p) :
    sysStep cfg s (.work dOk fOk now)
      = { s with queue := rest
               , client := (processPayment cfg s.client req dOk fOk now).client
               , ledger := ledgerInsert s.ledger req.id p
               , processed := s.processed + 1 } := by
  simp only [sysStep, workStep, hq, hp]

theorem sysStep_work_none (cfg : Config) (s : SysState) (dOk fOk : Bool)
    (now : Nat) (req : PaymentRequest) (rest : List PaymentRequest)
    (hq : s.queue = req :: rest)
    (hp : (processPayment cfg s.client req dOk fOk now).payment = none) :
    sysStep cfg s (.work dOk fOk now)
      = { s with queue := rest
               , client := (processPayment cfg s.client req dOk fOk now).client
               , ledger := ledgerInsert s.ledger req.id (mkFailedPayment req now)
               , failed := s.failed + 1 } := by
  simp only [sysStep, workStep, hq, hp]

theorem sysStep_close_eq (cfg : Config) (s : SysState) :
    sysStep cfg s .close = { s with closed := true, queue := [] } := rfl

theorem invNoClose_step (cfg : Config) (s : SysState) (ev : Event)
    (hev : ev ≠ Event.close) (h : invNoClose s) :
    invNoClose (sysStep cfg s ev) := by
  obtain ⟨hcl, hcnt, hpend⟩ := h
  cases ev with
  | submit req =>
      rw [sysStep_submit_eq, hcl]
      simp only [Bool.false_eq_true, if_false]
      refine ⟨rfl, ?_, ?_⟩
      · dsimp only
        rw [List.length_append]
        simp only [List.length_singleton]
        omega
      · intro e he hp
        rcases mem_ledgerInsert_strong _ _ _ _ he with he | he
        · refine ⟨req, ?_, ?_⟩
          · rw [List.mem_append, List.mem_singleton]
            exact Or.inr rfl
          · rw [he]
        · obtain ⟨r, hr, hrid⟩ := hpend e he.1 hp
          exact ⟨r, by rw [List.mem_append]; exact Or.inl hr, hrid⟩
  | work dOk fOk now =>
      cases hq : s.queue with
      | nil =>
          rw [sysStep_work_nil cfg s dOk fOk now hq]
          exact ⟨hcl, hcnt, hpend⟩
      | cons req rest =>
          cases hp : (processPayment cfg s.client req dOk fOk now).payment with
          | some p =>
              rw [sysStep_work_some cfg s dOk fOk now req rest p hq hp]
              refine ⟨hcl, ?_, ?_⟩
              · dsimp only
                rw [hq] at hcnt
                simp only [List.length_cons] at hcnt
                omega
              · intro e he hpe
                rcases mem_ledgerInsert_strong _ _ _ _ he with he | he
                · rw [he] at hpe
                  exact absurd hpe
                    (processPayment_processor_ne_pending cfg s.client req dOk
                      fOk now p hp)
                · obtain ⟨r, hr, hrid⟩ := hpend e he.1 hpe
                  rw [hq, List.mem_cons] at hr
                  rcases hr with hr | hr
                  · exact absurd (hr ▸ hrid) (by rw [hr] at hrid; exact fun hh => he.2 (hrid ▸ hh ▸ rfl))
                  · exact ⟨r, hr, hrid⟩
          | none =>
              rw [sysStep_work_none cfg s dOk fOk now req rest hq hp]
              refine ⟨hcl, ?_, ?_⟩
              · dsimp only
                rw [hq] at hcnt
                simp only [List.length_cons] at hcnt
                omega
              · intro e he hpe
                rcases mem_ledgerInsert_strong _ _ _ _ he with he | he
                · rw [he] at hpe
                  simp [mkFailedPayment] at hpe
                · obtain ⟨r, hr, hrid⟩ := hpend e he.1 hpe
                  rw [hq, List.mem_cons] at hr
                  rcases hr with hr | hr
                  · exact absurd (hr ▸ hrid) (by rw [hr] at hrid; exact fun hh => he.2 (hrid ▸ hh ▸ rfl))
                  · exact ⟨r, hr, hrid⟩
  | close => exact absurd rfl hev

theorem run_invNoClose (cfg : Config) (events : List Event) :
    ∀ s : SysState, invNoClose s → Event.close ∉ events →
      invNoClose (events.foldl (sysStep cfg) s) := by
  induction events with
  | nil => exact fun s hs _ => hs
  | cons ev rest ih =>
      intro s hs hnc
      rw [List.mem_cons] at hnc
      push_neg at hnc
      rw [List.foldl_cons]
      exact ih _ (invNoClose_step cfg s ev (fun hh => hnc.1 hh.symm) hs) hnc.2

theorem conservation_noClose (cfg : Config) (events : List Event)
    (hnc : Event.close ∉ events) (hq : (sysRun cfg events).queue = []) :
    (sysRun cfg events).submitted
      = (sysRun cfg events).processed + (sysRun cfg events).failed
        + countPending (sysRun cfg events).ledger := by
  have hinv : invNoClose (sysRun cfg events) := by
    rw [sysRun]
    refine run_invNoClose cfg events _ ⟨rfl, rfl, ?_⟩ hnc
    intro e he
    simp [SysState.init] at he
  obtain ⟨_, hcnt, hpend⟩ := hinv
  have hzero : countPending (sysRun cfg events).ledger = 0 := by
    refine countPending_zero_of_no_pending _ ?_
    intro e he hp
    obtain ⟨r, hr, _⟩ := hpend e he hp
    rw [hq] at hr
    simp at hr
  rw [hzero, hq] at *
  simp only [List.length_nil] at hcnt
  omega

theorem invDistinct_step_submit (cfg : Config) (s : SysState)
    (req : PaymentRequest) (h : invDistinct s)
    (hfresh : req.id ∉ ledgerKeys s.ledger) :
    invDistinct (sysStep cfg s (.submit req)) := by
  obtain ⟨hcnt, hkeys, hqpend, hqids, hqkeys⟩ := h
  have hqid_ne : ∀ r ∈ s.queue, r.id ≠ req.id :=
    fun r hr hh => hfresh (hh ▸ hqkeys r hr)
  have hcount : countPending (ledgerInsert s.ledger req.id
      (mkPendingPayment req)) = countPending s.ledger + 1 := by
    rw [countPending_insert_fresh s.ledger req.id _ hfresh]
    simp [mkPendingPayment]
  have hkeys' : (ledgerKeys (ledgerInsert s.ledger req.id
      (mkPendingPayment req))).Nodup :=
    ledgerInsert_nodup _ _ _ hkeys
  have hpend' : ∀ r ∈ s.queue, pendingAt (ledgerInsert s.ledger req.id
      (mkPendingPayment req)) r.id = true := by
    intro r hr
    rw [pendingAt_insert_ne _ _ _ _ (hqid_ne r hr)]
    exact hqpend r hr
  have hpendself : pendingAt (ledgerInsert s.ledger req.id
      (mkPendingPayment req)) req.id = true := by
    rw [pendingAt_insert_self]
    simp [mkPendingPayment]
  have hkeymem : ∀ r ∈ s.queue, r.id ∈ ledgerKeys (ledgerInsert s.ledger
      req.id (mkPendingPayment req)) :=
    fun r hr => mem_ledgerKeys_insert_of_mem _ _ _ _ (hqkeys r hr)
  rw [sysStep_submit_eq]
  by_cases hc : s.closed = true
  · simp only [hc, if_true]
    refine ⟨?_, hkeys', hpend', hqids, hkeymem⟩
    dsimp only
    rw [hcount]
    omega
  · simp only [Bool.not_eq_true] at hc
    rw [hc]
    simp only [Bool.false_eq_true, if_false]
    refine ⟨?_, hkeys', ?_, ?_, ?_⟩
    · dsimp only
      rw [hcount]
      omega
    · intro r hr
      rw [List.mem_append, List.mem_singleton] at hr
      rcases hr with hr | hr
      · exact hpend' r hr
      · rw [hr]
        exact hpendself
    · dsimp only
      rw [List.map_append]
      refine nodup_append_singleton _ _ hqids ?_
      intro hm
      rw [List.mem_map] at hm
      obtain ⟨r, hr, hrid⟩ := hm
      exact hqid_ne r hr hrid
    · intro r hr
      rw [List.mem_append, List.mem_singleton] at hr
      rcases hr with hr | hr
      · exact hkeymem r hr
      · rw [hr]
        exact mem_ledgerKeys_insert_self _ _ _

theorem invDistinct_step_work (cfg : Config) (s : SysState) (dOk fOk : Bool)
    (now : Nat) (h : invDistinct s) :
    invDistinct (sysStep cfg s (.work dOk fOk now)) := by
  obtain ⟨hcnt, hkeys, hqpend, hqids, hqkeys⟩ := h
  cases hq : s.queue with
  | nil =>
      rw [sysStep_work_nil cfg s dOk fOk now hq]
      exact ⟨hcnt, hkeys, hqpend, hqids, hqkeys⟩
  | cons req rest =>
      have hhead : req ∈ s.queue := by rw [hq]; exact List.mem_cons_self req rest
      have hrest : ∀ r ∈ rest, r ∈ s.queue := by
        intro r hr
        rw [hq]
        exact List.mem_cons_of_mem req hr
      have hrid_ne : ∀ r ∈ rest, r.id ≠ req.id := by
        intro r hr hh
        rw [hq, List.map_cons, List.nodup_cons] at hqids
        exact hqids.1 (hh ▸ List.mem_map_of_mem (fun x => x.id) hr)
      have hpendreq : pendingAt s.ledger req.id = true := hqpend req hhead
      have hdrop : (rest.map (fun r => r.id)).Nodup := by
        rw [hq, List.map_cons, List.nodup_cons] at hqids
        exact hqids.2
      cases hp : (processPayment cfg s.client req dOk fOk now).payment with
      | some p =>
          have hpnp : ¬ p.processor = "pending" :=
            processPayment_processor_ne_pending cfg s.client req dOk fOk now p hp
          have hcount : countPending (ledgerInsert s.ledger req.id p) + 1
              = countPending s.ledger := by
            have hc := countPending_insert s.ledger req.id p hkeys
            rw [hpendreq] at hc
            simp only [hpnp, if_false, if_true] at hc
            omega
          rw [sysStep_work_some cfg s dOk fOk now req rest p hq hp]
          refine ⟨?_, ledgerInsert_nodup _ _ _ hkeys, ?_, hdrop, ?_⟩
          · dsimp only
            omega
          · intro r hr
            rw [pendingAt_insert_ne _ _ _ _ (hrid_ne r hr)]
            exact hqpend r (hrest r hr)
          · intro r hr
            exact mem_ledgerKeys_insert_of_mem _ _ _ _ (hqkeys r (hrest r hr))
      | none =>
          have hpnp : ¬ (mkFailedPayment req now).processor = "pending" := by
            simp [mkFailedPayment]
          have hcount : countPending (ledgerInsert s.ledger req.id
              (mkFailedPayment req now)) + 1 = countPending s.ledger := by
            have hc := countPending_insert s.ledger req.id
              (mkFailedPayment req now) hkeys
            rw [hpendreq] at hc
            simp only [hpnp, if_false, if_true] at hc
            omega
          rw [sysStep_work_none cfg s dOk fOk now req rest hq hp]
          refine ⟨?_, ledgerInsert_nodup _ _ _ hkeys, ?_, hdrop, ?_⟩
          · dsimp only
            omega
          · intro r hr
            rw [pendingAt_insert_ne _ _ _ _ (hrid_ne r hr)]
            exact hqpend r (hrest r hr)
          · intro r hr
            exact mem_ledgerKeys_insert_of_mem _ _ _ _ (hqkeys r (hrest r hr))

theorem invDistinct_step_close (cfg : Config) (s : SysState)
    (h : invDistinct s) : invDistinct (sysStep cfg s .close) := by
  obtain ⟨hcnt, hkeys, _, _, _⟩ := h
  rw [sysStep_close_eq]
  refine ⟨hcnt, hkeys, ?_, ?_, ?_⟩
  · intro r hr
    simp at hr
  · simp
  · intro r hr
    simp at hr

theorem sysStep_keys_sub (cfg : Config) (s : SysState) (ev : Event)
    (hqk : ∀ r ∈ s.queue, r.id ∈ ledgerKeys s.ledger) (k : String)
    (hk : k ∈ ledgerKeys (sysStep cfg s ev).ledger) :
    k ∈ ledgerKeys s.ledger
    ∨ ∃ req : PaymentRequest, ev = Event.submit req ∧ k = req.id := by
  cases ev with
  | submit req =>
      have hsl : (sysStep cfg s (.submit req)).ledger
          = ledgerInsert s.ledger req.id (mkPendingPayment req) := by
        rw [sysStep_submit_eq]
        split <;> rfl
      rw [hsl] at hk
      rcases mem_ledgerKeys_insert_elim _ _ _ _ hk with hk | hk
      · exact Or.inr ⟨req, rfl, hk⟩
      · exact Or.inl hk
  | work dOk fOk now =>
      cases hq : s.queue with
      | nil =>
          rw [sysStep_work_nil cfg s dOk fOk now hq] at hk
          exact Or.inl hk
      | cons req rest =>
          have hreqk : req.id ∈ ledgerKeys s.ledger :=
            hqk req (by rw [hq]; exact List.mem_cons_self req rest)
          cases hp : (processPayment cfg s.client req dOk fOk now).payment with
          | some p =>
              rw [sysStep_work_some cfg s dOk fOk now req rest p hq hp] at hk
              rcases mem_ledgerKeys_insert_elim _ _ _ _ hk with hk | hk
              · exact Or.inl (hk ▸ hreqk)
              · exact Or.inl hk
          | none =>
              rw [sysStep_work_none cfg s dOk fOk now req rest hq hp] at hk
              rcases mem_ledgerKeys_insert_elim _ _ _ _ hk with hk | hk
              · exact Or.inl (hk ▸ hreqk)
              · exact Or.inl hk
  | close => exact Or.inl hk

theorem run_invDistinct (cfg : Config) (events : List Event) :
    ∀ s : SysState, invDistinct s → (submitIds events).Nodup →
      (∀ i ∈ submitIds events, i ∉ ledgerKeys s.ledger) →
      invDistinct (events.foldl (sysStep cfg) s) := by
  induction events with
  | nil => exact fun s hs _ _ => hs
  | cons ev rest ih =>
      intro s hs hnod hdisj
      rw [List.foldl_cons]
      cases ev with
      | submit req =>
          simp only [submitIds, List.nodup_cons] at hnod
          have hfresh : req.id ∉ ledgerKeys s.ledger :=
            hdisj req.id (by simp only [submitIds]; exact List.mem_cons_self _ _)
          refine ih _ (invDistinct_step_submit cfg s req hs hfresh) hnod.2 ?_
          intro i hi hmem
          rcases sysStep_keys_sub cfg s (.submit req) hs.2.2.2.2 i hmem with
            hm | ⟨r, hev, hkid⟩
          · exact hdisj i
              (by simp only [submitIds, List.mem_cons]; exact Or.inr hi) hm
          · injection hev with hreq
            rw [hkid, ← hreq] at hi
            exact hnod.1 hi
      | work dOk fOk now =>
          simp only [submitIds] at hnod hdisj
          refine ih _ (invDistinct_step_work cfg s dOk fOk now hs) hnod ?_
          intro i hi hmem
          rcases sysStep_keys_sub cfg s (.work dOk fOk now) hs.2.2.2.2 i hmem
            with hm | ⟨r, hev, _⟩
          · exact hdisj i hi hm
          · exact absurd hev (by simp)
      | close =>
          simp only [submitIds] at hnod hdisj
          refine ih _ (invDistinct_step_close cfg s hs) hnod ?_
          intro i hi hmem
          rcases sysStep_keys_sub cfg s .close hs.2.2.2.2 i hmem
            with hm | ⟨r, hev, _⟩
          · exact hdisj i hi hm
          · exact absurd hev (by simp)

theorem conservation_distinct (cfg : Config) (events : List Event)
    (hnod : (submitIds events).Nodup) :
    (sysRun cfg events).submitted
      = (sysRun cfg events).processed + (sysRun cfg events).failed
        + countPending (sysRun cfg events).ledger := by
  have hinv : invDistinct (sysRun cfg events) := by
    rw [sysRun]
    refine run_invDistinct cfg events _
      ⟨rfl, by simp [SysState.init, ledgerKeys],
        by intro r hr; simp [SysState.init] at hr,
        by simp [SysState.init],
        by intro r hr; simp [SysState.init] at hr⟩ hnod ?_
    intro i hi hmem
    simp [SysState.init, ledgerKeys] at hmem
  exact hinv.1

/-- C4 counterexample: the trace "close the channel, then submit the same id
twice" ends quiescent (empty queue, nothing in flight) with
`submitted = 2` but `processed + failed + pending = 0 + 0 + 1 = 1`: both
rejected submissions of `"d"` were counted by `submitted`, yet they share the
single pending ledger record under `"d"`. -/
theorem counter_conservation_counterexample :
    (sysRun Config.defaults
        [.close, .submit ⟨"d", 5⟩, .submit ⟨"d", 5⟩]).queue = []
    ∧ (sysRun Config.defaults
        [.close, .submit ⟨"d", 5⟩, .submit ⟨"d", 5⟩]).submitted = 2
    ∧ (sysRun Config.defaults
        [.close, .submit ⟨"d", 5⟩, .submit ⟨"d", 5⟩]).processed = 0
    ∧ (sysRun Config.defaults
        [.close, .submit ⟨"d", 5⟩, .submit ⟨"d", 5⟩]).failed = 0
    ∧ countPending (sysRun Config.defaults
        [.close, .submit ⟨"d", 5⟩, .submit ⟨"d", 5⟩]).ledger = 1
    ∧ ¬ ((sysRun Config.defaults
          [.close, .submit ⟨"d", 5⟩, .submit ⟨"d", 5⟩]).submitted
        = (sysRun Config.defaults
            [.close, .submit ⟨"d", 5⟩, .submit ⟨"d", 5⟩]).processed
          + (sysRun Config.defaults
              [.close, .submit ⟨"d", 5⟩, .submit ⟨"d", 5⟩]).failed
          + countPending (sysRun Config.defaults
              [.close, .submit ⟨"d", 5⟩, .submit ⟨"d", 5⟩]).ledger) := by
  decide

/-- C4 amended: at quiescence (queue drained, no in-flight submissions)
`submitted = processed + failed + pending-in-ledger` holds for every trace in
which all submissions carry pairwise-distinct ids (rejections allowed), and
for every trace in which the queue is never closed (repeated ids allowed; no
rejection can then occur). Repeated submissions of one id combined with
rejections break the equation, as the counterexample shows. -/
theorem counter_conservation (cfg : Config) (events : List Event)
    (h : (submitIds events).Nodup ∨ Event.close ∉ events)
    (hq : (sysRun cfg events).queue = []) :
    (sysRun cfg events).submitted
      = (sysRun cfg events).processed + (sysRun cfg events).failed
        + countPending (sysRun cfg events).ledger := by
  rcases h with h | h
  · exact conservation_distinct cfg events h
  · exact conservation_noClose cfg events h hq

/-- Concrete instance of `counter_conservation`: two distinct ids, one
processed before the close, one rejected after it. -/
theorem counter_conservation_witness :
    (sysRun Config.defaults
        [.submit ⟨"a", 1⟩, .work true true 2, .close, .submit ⟨"b", 3⟩]).queue
      = []
    ∧ (sysRun Config.defaults
        [.submit ⟨"a", 1⟩, .work true true 2, .close, .submit ⟨"b", 3⟩]).submitted
      = (sysRun Config.defaults
          [.submit ⟨"a", 1⟩, .work true true 2, .close, .submit ⟨"b", 3⟩]).processed
        + (sysRun Config.defaults
            [.submit ⟨"a", 1⟩, .work true true 2, .close, .submit ⟨"b", 3⟩]).failed
        + countPending (sysRun Config.defaults
            [.submit ⟨"a", 1⟩, .work true true 2, .close, .submit ⟨"b", 3⟩]).ledger := by
  refine ⟨by decide, ?_⟩
  exact counter_conservation Config.defaults
    [.submit ⟨"a", 1⟩, .work true true 2, .close, .submit ⟨"b", 3⟩]
    (Or.inl (by decide)) (by decide)
